import Mathlib

/-!
Verification of `meshtastic_SMHI.py` (SMHI weather alerts → Meshtastic).

This file gives a shallow embedding of the program's core pieces:
the word-aware message segmenter `truncate_utf8` (source lines 12–70),
the feed fetcher's error behaviour (lines 72–109), and the state of the
polling loop in `main` (lines 134–200): the rebroadcast ring
`message_queue` and the `known_alerts` / `first` bookkeeping.

Python strings are modelled as lists of Unicode code points (`List Char`);
UTF-8 byte counting, `split(" ")`, `" ".join`, and `strip()` are defined
explicitly below so that every step of the source can be re-traced.
-/

set_option maxRecDepth 8192

namespace SMHI

/-- Python `str`: a sequence of Unicode code points. -/
abbrev Str := List Char

/-- UTF-8 byte width of one code point, `len(ch.encode('utf-8'))`. -/
def utf8Width (c : Char) : Nat :=
  if c.toNat < 128 then 1
  else if c.toNat < 2048 then 2
  else if c.toNat < 65536 then 3
  else 4

/-- `len(s.encode('utf-8'))`. -/
def byteLen : Str → Nat
  | [] => 0
  | c :: cs => utf8Width c + byteLen cs

/-- Python `s.split(" ")`: split on every single space character, keeping
empty pieces (so `"a  b".split(" ") == ["a", "", "b"]`). -/
def splitOnSpace : Str → List Str
  | [] => [[]]
  | c :: cs =>
    if c = ' ' then [] :: splitOnSpace cs
    else
      match splitOnSpace cs with
      | [] => [[c]]
      | t :: ts => (c :: t) :: ts

/-- Python `" ".join(l)`. -/
def joinSpace : List Str → Str
  | [] => []
  | [w] => w
  | w :: ws => w ++ ' ' :: joinSpace ws

/-- Python `s.strip()`: drop leading and trailing whitespace. -/
def pyStrip (s : Str) : Str :=
  ((s.dropWhile Char.isWhitespace).reverse.dropWhile Char.isWhitespace).reverse

/-- Decimal rendering of a natural number, Python `str(n)` for `n ≥ 0`. -/
def natChars (n : Nat) : Str := Nat.toDigits 10 n

/-- The positional suffix `f" {i}/{n}"` appended to chunk `i` of `n`. -/
def suffixFor (i n : Nat) : Str := ' ' :: (natChars i ++ '/' :: natChars n)

/-- The truncation marker without its leading space. -/
def markerText : Str := "[...]".data

/-- The appended truncation marker `" [...]"` (source line 52). -/
def marker : Str := ' ' :: markerText

/-- The word-packing loop of `truncate_utf8` (source lines 27–61).

State mirrors the Python locals: `chunks` (each chunk kept as its list of
packed words, joined with `" "` when rendered), `cur` = `current_words`,
`size` = `current_size`, `esl` = `extra_suffix_length`.  The returned
Boolean records whether the loop left via `break` (line 57), i.e. whether
the truncation marker was appended; in that case `current_words` was reset
to `[]`, so the post-loop flush (lines 64–65) adds nothing.  Comparisons
that Python performs on possibly negative ints are done in `Int`. -/
def truncGo (maxB maxM suffixLen : Nat) :
    List Str → List (List Str) → List Str → Nat → Nat → List (List Str) × Bool
  | [], chunks, cur, _, _ =>
    (if cur ≠ [] then chunks ++ [cur] else chunks, false)
  | w :: ws, chunks, cur, size, esl =>
    let wsize := byteLen w
    if wsize > maxB then
      truncGo maxB maxM suffixLen ws chunks cur size esl
    else
      let extra := 1 + wsize
      let esl' := if (chunks.length : Int) = (maxM : Int) - 1 then 6 else esl
      if (size : Int) + (extra : Int) ≤ (maxB : Int) - (suffixLen : Int) - (esl' : Int) then
        truncGo maxB maxM suffixLen ws chunks (cur ++ [w]) (size + extra) esl'
      else
        let chunks' := chunks ++ [cur]
        if chunks'.length = maxM then (chunks', true)
        else truncGo maxB maxM suffixLen ws chunks' [w] wsize esl'

/-- `chunks[-1] += " [...]"` (source line 52). -/
def markLast : List Str → List Str
  | [] => []
  | [c] => [c ++ marker]
  | c :: cs => c :: markLast cs

/-- The suffixing loop (source lines 67–68): chunk `i` (0-based) becomes
`chunks[i].strip() + f" {i+1}/{n}"` where `n` is the chunk count. -/
def addSuffixFrom (n : Nat) : Nat → List Str → List Str
  | _, [] => []
  | i, c :: cs => (pyStrip c ++ suffixFor (i + 1) n) :: addSuffixFrom n (i + 1) cs

/-- `truncate_utf8(s, max_bytes)` (source lines 12–70), with the module
global `MAX_MESSAGES` passed explicitly as `maxM`. -/
def truncate_utf8 (maxM : Nat) (s : Str) (max_bytes : Nat := 200) : List Str :=
  if byteLen s ≤ max_bytes then [s]
  else
    let suffix_length := byteLen (suffixFor maxM maxM)
    let r := truncGo max_bytes maxM suffix_length (splitOnSpace s) [] [] 0 0
    let chunks := r.1.map joinSpace
    let chunks := if r.2 then markLast chunks else chunks
    addSuffixFrom chunks.length 0 chunks

/-- `True` exactly when the packing loop hit its `break` (source line 57),
i.e. when segmentation discarded the remaining words. -/
def truncationOccurred (maxM : Nat) (s : Str) (max_bytes : Nat := 200) : Bool :=
  if byteLen s ≤ max_bytes then false
  else
    (truncGo max_bytes maxM (byteLen (suffixFor maxM maxM)) (splitOnSpace s) [] [] 0 0).2

/-! ### Whitespace tokenisation, used to state the content-preservation claims

`wtokens` splits a string at whitespace and drops empty pieces, the usual
notion of the whitespace-separated words of a text (Python `s.split()`). -/

/-- Accumulating worker for `wtokens`; `acc` is the word read so far. -/
def wtokensAux (acc : Str) : Str → List Str
  | [] => if acc = [] then [] else [acc]
  | c :: cs =>
    if c.isWhitespace then
      if acc = [] then wtokensAux [] cs else acc :: wtokensAux [] cs
    else wtokensAux (acc ++ [c]) cs

/-- The whitespace-separated words of a text, in order, empties dropped. -/
def wtokens (s : Str) : List Str := wtokensAux [] s

/-- Concatenation of a list of lists. -/
def flatW : List (List α) → List α
  | [] => []
  | x :: xs => x ++ flatW xs

/-- All whitespace-words of a list of strings, in order. -/
def tokensOfAll (l : List Str) : List Str := flatW (l.map wtokens)

/-- Remove the exact trailing occurrence of `t` from `s`, if present. -/
def dropTrailing (t s : Str) : Str :=
  if t.isSuffixOf s then s.take (s.length - t.length) else s

/-- Remove a trailing truncation marker from (the last) chunk: either the
chunk is exactly `"[...]"` (a marker on an empty chunk, whose leading space
was removed by `strip()`), or it ends in `" [...]"`. -/
def stripMarker (c : Str) : Str :=
  if c = markerText then [] else dropTrailing marker c

/-- Remove the positional suffixes `" i/n"` from chunks `i, i+1, ...` of `n`. -/
def stripSuffixesFrom (n : Nat) : Nat → List Str → List Str
  | _, [] => []
  | i, c :: cs => dropTrailing (suffixFor (i + 1) n) c :: stripSuffixesFrom n (i + 1) cs

/-- Apply `f` to the last element only. -/
def mapLast (f : Str → Str) : List Str → List Str
  | [] => []
  | [c] => [f c]
  | c :: cs => c :: mapLast f cs

/-- Undo the decorations `truncate_utf8` adds: strip each chunk's positional
suffix, and the truncation marker (which can only sit on the last chunk). -/
def stripDecorAll (out : List Str) : List Str :=
  mapLast stripMarker (stripSuffixesFrom out.length 0 out)

/-- The word-keeping test of the loop: line 32 skips a word exactly when its
own byte length exceeds `max_bytes`. -/
def keepWord (maxB : Nat) (w : Str) : Bool := !(byteLen w > maxB : Bool)

/-- Last element of a list of lists, `[]` if the list is empty. -/
def lastD : List (List α) → List α
  | [] => []
  | [c] => c
  | _ :: c :: cs => lastD (c :: cs)

/-- The whitespace-words of each chunk's word list, concatenated. -/
def tokensOfChunks (css : List (List Str)) : List Str := flatW (css.map tokensOfAll)

/-! ### The rebroadcast ring (`message_queue` in `main`, lines 147–160, 184–188) -/

/-- The ring as built at start-up (line 147):
`[[] for i in range(REPEAT_NUM_CYCL*REPEAT_NUM_MSG)]`. -/
def initQueue (repeatNum cycles : Nat) : List (List M) := List.replicate (cycles * repeatNum) []

/-- Element `k` of a list of slots, an empty slot when out of range. -/
def atD (l : List β) (k : Nat) (d : β) : β := (l.drop k).headD d

/-- One `advance`: `queued = q.pop(0)` then `q.append([])` (lines 153, 160);
returns the drained slot and the rotated ring. -/
def advanceQ (q : List (List M)) : List M × List (List M) := (q.headD [], q.tail ++ [[]])

/-- `q[j].extend(msgs)`. -/
def extendAt (q : List (List M)) (j : Nat) (msgs : List M) : List (List M) :=
  q.set j (atD q j [] ++ msgs)

/-- `schedule`: for `i in range(repeatNum): q[(i+1)*cycles-1].extend(msgs)`
(lines 186–187). -/
def scheduleQ (q : List (List M)) (msgs : List M) (cycles : Nat) : Nat → List (List M)
  | 0 => q
  | r + 1 => extendAt (scheduleQ q msgs cycles r) ((r + 1) * cycles - 1) msgs

/-- The ring after `k` further cycles of `advance`. -/
def ringAfter (q : List (List M)) : Nat → List (List M)
  | 0 => q
  | k + 1 => ringAfter (advanceQ q).2 k

/-- What the `k`-th subsequent `advance` (0-based) drains and dispatches. -/
def outputAt (q : List (List M)) (k : Nat) : List M := (ringAfter q k).headD []

/-! ### The polling loop's alert bookkeeping (`main`, lines 143, 163–195) -/

/-- The mutable loop state: `first` (line 143) and `known_alerts` (line 148). -/
structure LoopState (α : Type) where
  first : Bool
  known : Finset α

/-- One poll cycle, given that cycle's fetched key set `current`:
`new_alerts = current - known` (line 166) is dispatched unless `first`
(line 170); then `known = current` (line 192) and `first = False` (line 195).
Returns the set of alert keys dispatched as new this cycle. -/
def mainCycle [DecidableEq α] (st : LoopState α) (current : Finset α) :
    Finset α × LoopState α :=
  (if st.first then ∅ else current \ st.known, ⟨false, current⟩)

/-- Run the loop over a list of per-cycle fetched key sets; returns the
per-cycle dispatched-as-new sets and the final state. -/
def mainRun [DecidableEq α] (st : LoopState α) : List (Finset α) → List (Finset α) × LoopState α
  | [] => ([], st)
  | c :: rest =>
    let step := mainCycle st c
    let tail := mainRun step.2 rest
    (step.1 :: tail.1, tail.2)

/-- Start-up state: `first = not DRY_RUN` (line 143), `known_alerts = set()`. -/
def initState (dryRun : Bool) : LoopState α := ⟨!dryRun, ∅⟩

/-! ### `fetch_alerts` (lines 72–109) and its use in `main` (line 163) -/

/-- One warning area of an alert, reduced to the fields the code reads. -/
structure WarningArea where
  waId : Str
  levelCode : Str
  affected : List Int
deriving DecidableEq

/-- One alert of the feed. -/
structure FeedAlert where
  alertId : Str
  warningAreas : List WarningArea
deriving DecidableEq

/-- The two shapes `fetch_alerts` can return: the success path returns the
pair `(alert_ids, filtered_alerts)` (line 109), the exception handler
returns the single value `set()` (line 82). -/
inductive FetchResult where
  | pair (ids : Finset Str) (alerts : List WarningArea)
  | bareSet (ids : Finset Str)

/-- The success-path body of `fetch_alerts` (lines 86–109): keep warning
areas that are not `MESSAGE`s and affect `geocode`, key them by
`alert_id + wa_id`. -/
def processFeed (geocode : Int) (data : List FeedAlert) : Finset Str × List WarningArea :=
  data.foldl (fun acc alert =>
    alert.warningAreas.foldl (fun (acc : Finset Str × List WarningArea) wa =>
      if wa.levelCode = "MESSAGE".data then acc
      else if wa.affected.any (· = geocode) then
        let combined := alert.alertId ++ wa.waId
        (insert combined acc.1, acc.2 ++ [{ wa with waId := combined }])
      else acc) acc) (∅, [])

/-- `fetch_alerts`: `none` models `requests.get`/`raise_for_status` raising a
`RequestException`, in which case the handler runs `return set()` (line 82). -/
def fetch_alerts (geocode : Int) (response : Option (List FeedAlert)) : FetchResult :=
  match response with
  | none => .bareSet ∅
  | some data =>
    let r := processFeed geocode data
    .pair r.1 r.2

/-- The tuple unpacking `current_alerts, data = fetch_alerts()` (line 163):
a 2-tuple unpacks; unpacking the bare set raises `ValueError` (`none`). -/
def unpackFetch : FetchResult → Option (Finset Str × List WarningArea)
  | .pair ids alerts => some (ids, alerts)
  | .bareSet _ => none

/-! ## Basic lemmas about the string model -/

theorem byteLen_append (a b : Str) : byteLen (a ++ b) = byteLen a + byteLen b := by
  induction a with
  | nil => simp [byteLen]
  | cons c cs ih => simp [byteLen, ih]; omega

theorem splitOnSpace_ne_nil (s : Str) : splitOnSpace s ≠ [] := by
  cases s with
  | nil => simp [splitOnSpace]
  | cons c cs =>
    simp only [splitOnSpace]
    split
    · simp
    · split <;> simp

theorem joinSpace_cons (w : Str) (l : List Str) (h : l ≠ []) :
    joinSpace (w :: l) = w ++ ' ' :: joinSpace l := by
  cases l with
  | nil => exact absurd rfl h
  | cons x xs => rfl

theorem joinSpace_cons_head (c : Char) (t : Str) (ts : List Str) :
    joinSpace ((c :: t) :: ts) = c :: joinSpace (t :: ts) := by
  cases ts <;> rfl

theorem joinSpace_splitOnSpace (s : Str) : joinSpace (splitOnSpace s) = s := by
  induction s with
  | nil => rfl
  | cons c cs ih =>
    simp only [splitOnSpace]
    by_cases hc : c = ' '
    · rw [if_pos hc, joinSpace_cons _ _ (splitOnSpace_ne_nil cs), ih, hc]
      rfl
    · rw [if_neg hc]
      rcases hsp : splitOnSpace cs with _ | ⟨t, ts⟩
      · exact absurd hsp (splitOnSpace_ne_nil cs)
      · rw [joinSpace_cons_head, ← hsp, ih]

theorem byteLen_mem_joinSpace (w : Str) (l : List Str) (h : w ∈ l) :
    byteLen w ≤ byteLen (joinSpace l) := by
  induction l with
  | nil => cases h
  | cons x xs ih =>
    cases xs with
    | nil =>
      rcases List.mem_singleton.mp h with rfl
      exact le_refl _
    | cons y ys =>
      rw [joinSpace_cons _ _ (by simp), byteLen_append]
      rcases List.mem_cons.mp h with rfl | hmem
      · omega
      · have := ih hmem
        simp only [byteLen] at *
        omega

theorem byteLen_word_le (w : Str) (s : Str) (h : w ∈ splitOnSpace s) :
    byteLen w ≤ byteLen s := by
  have := byteLen_mem_joinSpace w (splitOnSpace s) h
  rwa [joinSpace_splitOnSpace] at this

/-! ## Lemmas about whitespace tokenisation -/

theorem wtokensAux_append_ws {c : Char} (hc : c.isWhitespace) (xs ys : Str) :
    ∀ acc, wtokensAux acc (xs ++ c :: ys) = wtokensAux acc xs ++ wtokens ys := by
  induction xs with
  | nil =>
    intro acc
    simp only [List.nil_append, wtokensAux, hc, if_pos]
    by_cases h : acc = [] <;> simp [h, wtokens]
  | cons d ds ih =>
    intro acc
    simp only [List.cons_append, wtokensAux]
    by_cases hd : d.isWhitespace
    · simp only [hd, if_pos]
      by_cases h : acc = [] <;> simp [h, ih]
    · simp [hd, ih]

theorem wtokens_append_ws {c : Char} (hc : c.isWhitespace) (xs ys : Str) :
    wtokens (xs ++ c :: ys) = wtokens xs ++ wtokens ys :=
  wtokensAux_append_ws hc xs ys []

theorem wtokensAux_allws (t : Str) (ht : ∀ c ∈ t, c.isWhitespace) :
    ∀ acc, wtokensAux acc t = if acc = [] then [] else [acc] := by
  induction t with
  | nil => intro acc; rfl
  | cons c cs ih =>
    intro acc
    have hc : c.isWhitespace := ht c (by simp)
    have hcs : ∀ d ∈ cs, d.isWhitespace := fun d hd => ht d (by simp [hd])
    simp only [wtokensAux, hc, if_pos]
    by_cases h : acc = [] <;> simp [h, ih hcs]

theorem wtokensAux_append_allws (t : Str) (ht : ∀ c ∈ t, c.isWhitespace) (xs : Str) :
    ∀ acc, wtokensAux acc (xs ++ t) = wtokensAux acc xs := by
  induction xs with
  | nil =>
    intro acc
    rw [List.nil_append, wtokensAux_allws t ht acc]
    rfl
  | cons d ds ih =>
    intro acc
    simp only [List.cons_append, wtokensAux]
    by_cases hd : d.isWhitespace
    · simp only [hd, if_pos]
      by_cases h : acc = [] <;> simp [h, ih]
    · simp [hd, ih]

theorem wtokens_append_allws (t : Str) (ht : ∀ c ∈ t, c.isWhitespace) (xs : Str) :
    wtokens (xs ++ t) = wtokens xs :=
  wtokensAux_append_allws t ht xs []

theorem wtokens_dropWhile (s : Str) :
    wtokens (s.dropWhile Char.isWhitespace) = wtokens s := by
  induction s with
  | nil => rfl
  | cons c cs ih =>
    by_cases hc : c.isWhitespace
    · rw [List.dropWhile_cons_of_pos (by simp [hc]), ih]
      simp [wtokens, wtokensAux, hc]
    · rw [List.dropWhile_cons_of_neg (by simp [hc])]

theorem wtokens_pyStrip (s : Str) : wtokens (pyStrip s) = wtokens s := by
  unfold pyStrip
  set u := s.dropWhile Char.isWhitespace with hu
  have hsplit : u = (u.reverse.dropWhile Char.isWhitespace).reverse
      ++ (u.reverse.takeWhile Char.isWhitespace).reverse := by
    conv_lhs => rw [← List.reverse_reverse u, ← List.takeWhile_append_dropWhile
      (p := Char.isWhitespace) (l := u.reverse)]
    rw [List.reverse_append]
  have hws : ∀ c ∈ (u.reverse.takeWhile Char.isWhitespace).reverse, c.isWhitespace := by
    intro c hcmem
    exact List.mem_takeWhile_imp (List.mem_reverse.mp hcmem)
  calc wtokens (u.reverse.dropWhile Char.isWhitespace).reverse
      = wtokens ((u.reverse.dropWhile Char.isWhitespace).reverse
          ++ (u.reverse.takeWhile Char.isWhitespace).reverse) :=
        (wtokens_append_allws _ hws _).symm
    _ = wtokens u := by rw [← hsplit]
    _ = wtokens s := wtokens_dropWhile s

theorem tokensOfAll_append (a b : List Str) :
    tokensOfAll (a ++ b) = tokensOfAll a ++ tokensOfAll b := by
  induction a with
  | nil => rfl
  | cons x xs ih => simp [tokensOfAll, flatW, ih] at *; simp [ih]

theorem wtokens_joinSpace (l : List Str) : wtokens (joinSpace l) = tokensOfAll l := by
  induction l with
  | nil => rfl
  | cons w ws ih =>
    cases ws with
    | nil => simp [joinSpace, tokensOfAll, flatW]
    | cons u us =>
      rw [joinSpace_cons _ _ (by simp), wtokens_append_ws (by decide) w _, ih]
      rfl

theorem byteLen_wtokensAux_le (s : Str) :
    ∀ acc t, t ∈ wtokensAux acc s → byteLen t ≤ byteLen acc + byteLen s := by
  induction s with
  | nil =>
    intro acc t ht
    simp only [wtokensAux] at ht
    by_cases h : acc = []
    · simp [h] at ht
    · simp [h] at ht
      simp [ht, byteLen]
  | cons c cs ih =>
    intro acc t ht
    simp only [wtokensAux] at ht
    by_cases hc : c.isWhitespace
    · rw [if_pos hc] at ht
      by_cases h : acc = []
      · rw [if_pos h] at ht
        have := ih [] t ht
        simp only [byteLen] at *
        omega
      · rw [if_neg h] at ht
        rcases List.mem_cons.mp ht with rfl | ht'
        · simp only [byteLen]
          omega
        · have := ih [] t ht'
          simp only [byteLen] at *
          omega
    · rw [if_neg hc] at ht
      have := ih (acc ++ [c]) t ht
      rw [byteLen_append] at this
      simp only [byteLen] at *
      omega

theorem byteLen_wtokens_le (s t : Str) (h : t ∈ wtokens s) : byteLen t ≤ byteLen s := by
  have := byteLen_wtokensAux_le s [] t h
  simpa [byteLen] using this

/-! ## Lemmas about stripping the appended decorations -/

theorem dropTrailing_append_exact (t y : Str) : dropTrailing t (y ++ t) = y := by
  unfold dropTrailing
  rw [if_pos (List.isSuffixOf_iff_suffix.mpr ⟨y, rfl⟩)]
  have hlen : (y ++ t).length - t.length = y.length := by
    rw [List.length_append]; omega
  rw [hlen, List.take_left]

theorem dropTrailing_tokens_pre (t' : Str) (s : Str) :
    ∃ r, wtokens s = wtokens (dropTrailing (' ' :: t') s) ++ r := by
  unfold dropTrailing
  by_cases h : (' ' :: t').isSuffixOf s
  · rw [if_pos h]
    obtain ⟨y, hy⟩ := List.isSuffixOf_iff_suffix.mp h
    rw [← hy]
    have hlen : (y ++ ' ' :: t').length - (' ' :: t').length = y.length := by
      rw [List.length_append]; omega
    rw [hlen, List.take_left, wtokens_append_ws (by decide) y t']
    exact ⟨wtokens t', rfl⟩
  · rw [if_neg h]
    exact ⟨[], (List.append_nil _).symm⟩

theorem stripMarker_tokens_pre (c : Str) :
    ∃ r, wtokens c = wtokens (stripMarker c) ++ r := by
  unfold stripMarker
  by_cases h : c = markerText
  · rw [if_pos h]
    exact ⟨wtokens c, rfl⟩
  · rw [if_neg h]
    exact dropTrailing_tokens_pre markerText c

theorem stripSuffixesFrom_addSuffixFrom (n : Nat) (l : List Str) :
    ∀ i, stripSuffixesFrom n i (addSuffixFrom n i l) = l.map pyStrip := by
  induction l with
  | nil => intro i; rfl
  | cons c cs ih =>
    intro i
    simp only [addSuffixFrom, stripSuffixesFrom, List.map]
    rw [dropTrailing_append_exact, ih]

theorem addSuffixFrom_length (n : Nat) (l : List Str) :
    ∀ i, (addSuffixFrom n i l).length = l.length := by
  induction l with
  | nil => intro i; rfl
  | cons c cs ih => intro i; simp [addSuffixFrom, ih]

theorem mapLast_length (f : Str → Str) (l : List Str) : (mapLast f l).length = l.length := by
  induction l with
  | nil => rfl
  | cons c cs ih =>
    cases cs with
    | nil => rfl
    | cons d ds => simpa [mapLast] using ih

theorem markLast_eq_mapLast (l : List Str) : markLast l = mapLast (fun c => c ++ marker) l := by
  induction l with
  | nil => rfl
  | cons c cs ih =>
    cases cs with
    | nil => rfl
    | cons d ds => simpa [markLast, mapLast] using ih

theorem lastD_cons_of_ne (c : List α) (l : List (List α)) (h : l ≠ []) :
    lastD (c :: l) = lastD l := by
  cases l with
  | nil => exact absurd rfl h
  | cons d ds => rfl

theorem addSuffixFrom_ne_nil (n i : Nat) (l : List Str) (h : l ≠ []) :
    addSuffixFrom n i l ≠ [] := by
  cases l with
  | nil => exact absurd rfl h
  | cons c cs => simp [addSuffixFrom]

theorem mapLast_ne_nil (f : Str → Str) (l : List Str) (h : l ≠ []) :
    mapLast f l ≠ [] := by
  cases l with
  | nil => exact absurd rfl h
  | cons c cs => cases cs <;> simp [mapLast]

theorem lastD_addSuffixFrom (n : Nat) (l : List Str) (h : l ≠ []) :
    ∀ i, lastD (addSuffixFrom n i l) = pyStrip (lastD l) ++ suffixFor (i + l.length) n := by
  induction l with
  | nil => exact absurd rfl h
  | cons c cs ih =>
    intro i
    cases cs with
    | nil => simp [addSuffixFrom, lastD]
    | cons d ds =>
      rw [show addSuffixFrom n i (c :: d :: ds)
            = (pyStrip c ++ suffixFor (i + 1) n) :: addSuffixFrom n (i + 1) (d :: ds) from rfl,
        lastD_cons_of_ne _ _ (addSuffixFrom_ne_nil n (i + 1) (d :: ds) (by simp)),
        ih (by simp) (i + 1),
        lastD_cons_of_ne _ (d :: ds) (by simp)]
      congr 2
      simp only [List.length_cons]
      omega

theorem lastD_mapLast (f : Str → Str) (l : List Str) (h : l ≠ []) :
    lastD (mapLast f l) = f (lastD l) := by
  induction l with
  | nil => exact absurd rfl h
  | cons c cs ih =>
    cases cs with
    | nil => rfl
    | cons d ds =>
      rw [show mapLast f (c :: d :: ds) = c :: mapLast f (d :: ds) from rfl,
        lastD_cons_of_ne _ _ (mapLast_ne_nil f (d :: ds) (by simp)),
        ih (by simp), lastD_cons_of_ne _ (d :: ds) (by simp)]

theorem lastD_map_joinSpace (l : List (List Str)) (h : l ≠ []) :
    lastD (l.map joinSpace) = joinSpace (lastD l) := by
  induction l with
  | nil => exact absurd rfl h
  | cons c cs ih =>
    cases cs with
    | nil => rfl
    | cons d ds =>
      rw [show (c :: d :: ds).map joinSpace = joinSpace c :: (d :: ds).map joinSpace from rfl,
        lastD_cons_of_ne _ _ (by simp), ih (by simp), lastD_cons_of_ne _ (d :: ds) (by simp)]

/-! ## How `strip()` interacts with the appended truncation marker -/

theorem dropWhile_marker_rev (u : Str) :
    ((markerText.reverse ++ u).dropWhile Char.isWhitespace) = markerText.reverse ++ u := by
  have : markerText.reverse = ']' :: '.' :: '.' :: '.' :: '[' :: [] := by decide
  rw [this]
  rw [List.cons_append, List.dropWhile_cons_of_neg (by decide)]

theorem pyStrip_append_marker (x : Str) :
    pyStrip (x ++ marker) =
      if x.dropWhile Char.isWhitespace = [] then markerText
      else x.dropWhile Char.isWhitespace ++ marker := by
  unfold pyStrip
  have hmark : List.dropWhile Char.isWhitespace marker = markerText := by decide
  rw [List.dropWhile_append]
  by_cases h : x.dropWhile Char.isWhitespace = []
  · rw [if_pos (by simp [h]), hmark, if_pos h]
    have : markerText.reverse = markerText.reverse ++ [] := by simp
    rw [this, dropWhile_marker_rev]
    simp
  · rw [if_neg (by simp [h]), if_neg h]
    have hrev : (x.dropWhile Char.isWhitespace ++ marker).reverse
        = markerText.reverse ++ (' ' :: (x.dropWhile Char.isWhitespace).reverse) := by
      show (x.dropWhile Char.isWhitespace ++ (' ' :: markerText)).reverse = _
      rw [List.reverse_append, List.reverse_cons, List.append_assoc]
      rfl
    rw [hrev, dropWhile_marker_rev, ← hrev, List.reverse_reverse]

theorem stripMarker_pyStrip_marker (x : Str) :
    stripMarker (pyStrip (x ++ marker)) = x.dropWhile Char.isWhitespace := by
  rw [pyStrip_append_marker]
  by_cases h : x.dropWhile Char.isWhitespace = []
  · rw [if_pos h, h]
    rfl
  · rw [if_neg h]
    unfold stripMarker
    rw [if_neg ?_, dropTrailing_append_exact]
    intro heq
    have := congrArg List.length heq
    simp only [List.length_append] at this
    have h1 : 1 ≤ (x.dropWhile Char.isWhitespace).length := by
      cases hx : x.dropWhile Char.isWhitespace with
      | nil => exact absurd hx h
      | cons a l => simp
    have h2 : marker.length = 6 := by decide
    have h3 : markerText.length = 5 := by decide
    omega

theorem pyStrip_append_marker_decomp (x : Str) :
    ∃ y, pyStrip (x ++ marker) = y ++ markerText := by
  rw [pyStrip_append_marker]
  by_cases h : x.dropWhile Char.isWhitespace = []
  · exact ⟨[], by rw [if_pos h]; rfl⟩
  · refine ⟨x.dropWhile Char.isWhitespace ++ [' '], ?_⟩
    rw [if_neg h, List.append_assoc]
    rfl

/-! ## Invariants of the packing loop -/

theorem flatW_append (a b : List (List α)) : flatW (a ++ b) = flatW a ++ flatW b := by
  induction a with
  | nil => rfl
  | cons x xs ih => simp [flatW, ih]

/-- The words packed into the resulting chunks extend the already-packed ones
by an initial segment of the byte-size-filtered remaining words. -/
theorem truncGo_words (maxB maxM sl : Nat) :
    ∀ ws : List Str, ∀ chunks cur size esl, ∃ t r,
      flatW (truncGo maxB maxM sl ws chunks cur size esl).1
          = flatW chunks ++ cur ++ t ∧
        t ++ r = ws.filter (keepWord maxB) := by
  intro ws
  induction ws with
  | nil =>
    intro chunks cur size esl
    refine ⟨[], [], ?_, rfl⟩
    simp only [truncGo]
    by_cases h : cur = []
    · simp [h]
    · simp [h, flatW_append, flatW]
  | cons w ws ih =>
    intro chunks cur size esl
    simp only [truncGo]
    by_cases h1 : byteLen w > maxB
    · rw [if_pos h1]
      obtain ⟨t, r, ht, hr⟩ := ih chunks cur size esl
      refine ⟨t, r, ht, ?_⟩
      have : ¬ keepWord maxB w = true := by simp [keepWord, h1]
      rw [List.filter_cons_of_neg this, hr]
    · rw [if_neg h1]
      have hkeep : keepWord maxB w = true := by simp [keepWord, h1]
      by_cases h2 : (size : Int) + (1 + byteLen w : Nat) ≤
          (maxB : Int) - (sl : Int) -
            ((if (chunks.length : Int) = (maxM : Int) - 1 then 6 else esl : Nat) : Int)
      · rw [if_pos h2]
        obtain ⟨t, r, ht, hr⟩ := ih chunks (cur ++ [w]) (size + (1 + byteLen w)) _
        refine ⟨w :: t, r, ?_, ?_⟩
        · rw [ht]
          simp [List.append_assoc]
        · rw [List.filter_cons_of_pos hkeep, ← hr]
          rfl
      · rw [if_neg h2]
        by_cases h3 : (chunks ++ [cur]).length = maxM
        · rw [if_pos h3]
          refine ⟨[], w :: ws.filter (keepWord maxB), ?_, ?_⟩
          · simp [flatW_append, flatW]
          · rw [List.filter_cons_of_pos hkeep]
            rfl
        · rw [if_neg h3]
          obtain ⟨t, r, ht, hr⟩ := ih (chunks ++ [cur]) [w] (byteLen w) _
          refine ⟨w :: t, r, ?_, ?_⟩
          · rw [ht]
            simp [flatW_append, flatW, List.append_assoc]
          · rw [List.filter_cons_of_pos hkeep, ← hr]
            rfl

/-- The loop never produces more than `MAX_MESSAGES` chunks (for a positive
`MAX_MESSAGES`; the running chunk list always has room for one more). -/
theorem truncGo_len (maxB maxM sl : Nat) :
    ∀ ws : List Str, ∀ chunks cur size esl, chunks.length + 1 ≤ maxM →
      (truncGo maxB maxM sl ws chunks cur size esl).1.length ≤ maxM := by
  intro ws
  induction ws with
  | nil =>
    intro chunks cur size esl h
    simp only [truncGo]
    by_cases hc : cur = [] <;> simp [hc] <;> omega
  | cons w ws ih =>
    intro chunks cur size esl h
    simp only [truncGo]
    by_cases h1 : byteLen w > maxB
    · rw [if_pos h1]
      exact ih chunks cur size esl h
    · rw [if_neg h1]
      by_cases h2 : (size : Int) + (1 + byteLen w : Nat) ≤
          (maxB : Int) - (sl : Int) -
            ((if (chunks.length : Int) = (maxM : Int) - 1 then 6 else esl : Nat) : Int)
      · rw [if_pos h2]
        exact ih chunks (cur ++ [w]) _ _ h
      · rw [if_neg h2]
        by_cases h3 : (chunks ++ [cur]).length = maxM
        · rw [if_pos h3]
          simp only [List.length_append, List.length_singleton] at h3 ⊢
          omega
        · rw [if_neg h3]
          refine ih (chunks ++ [cur]) [w] _ _ ?_
          simp only [List.length_append, List.length_singleton] at h3 ⊢
          omega

/-- When the loop leaves via `break`, the chunk list has exactly
`MAX_MESSAGES` entries (in particular it is non-empty when it broke). -/
theorem truncGo_true (maxB maxM sl : Nat) :
    ∀ ws : List Str, ∀ chunks cur size esl,
      (truncGo maxB maxM sl ws chunks cur size esl).2 = true →
      (truncGo maxB maxM sl ws chunks cur size esl).1.length = maxM ∧
        (truncGo maxB maxM sl ws chunks cur size esl).1 ≠ [] := by
  intro ws
  induction ws with
  | nil =>
    intro chunks cur size esl h
    simp only [truncGo] at h
    by_cases hc : cur = [] <;> simp [hc] at h
  | cons w ws ih =>
    intro chunks cur size esl h
    simp only [truncGo] at h ⊢
    by_cases h1 : byteLen w > maxB
    · rw [if_pos h1] at h ⊢
      exact ih chunks cur size esl h
    · rw [if_neg h1] at h ⊢
      by_cases h2 : (size : Int) + (1 + byteLen w : Nat) ≤
          (maxB : Int) - (sl : Int) -
            ((if (chunks.length : Int) = (maxM : Int) - 1 then 6 else esl : Nat) : Int)
      · rw [if_pos h2] at h ⊢
        exact ih chunks (cur ++ [w]) _ _ h
      · rw [if_neg h2] at h ⊢
        by_cases h3 : (chunks ++ [cur]).length = maxM
        · rw [if_pos h3] at h ⊢
          exact ⟨h3, by simp⟩
        · rw [if_neg h3] at h ⊢
          exact ih (chunks ++ [cur]) [w] _ _ h

/-- Words longer than `max_bytes` have no effect at all on the packing: the
loop behaves as if they were deleted from the word list beforehand. -/
theorem truncGo_filter_eq (maxB maxM sl : Nat) :
    ∀ ws : List Str, ∀ chunks cur size esl,
      truncGo maxB maxM sl ws chunks cur size esl
        = truncGo maxB maxM sl (ws.filter (keepWord maxB)) chunks cur size esl := by
  intro ws
  induction ws with
  | nil => intro chunks cur size esl; rfl
  | cons w ws ih =>
    intro chunks cur size esl
    by_cases h1 : byteLen w > maxB
    · have : ¬ keepWord maxB w = true := by simp [keepWord, h1]
      rw [List.filter_cons_of_neg this]
      calc truncGo maxB maxM sl (w :: ws) chunks cur size esl
          = truncGo maxB maxM sl ws chunks cur size esl := by
            simp only [truncGo]; rw [if_pos h1]
        _ = _ := ih chunks cur size esl
    · have hkeep : keepWord maxB w = true := by simp [keepWord, h1]
      rw [List.filter_cons_of_pos hkeep]
      simp only [truncGo]
      rw [if_neg h1, if_neg h1]
      by_cases h2 : (size : Int) + (1 + byteLen w : Nat) ≤
          (maxB : Int) - (sl : Int) -
            ((if (chunks.length : Int) = (maxM : Int) - 1 then 6 else esl : Nat) : Int)
      · rw [if_pos h2, if_pos h2]
        exact ih chunks (cur ++ [w]) _ _
      · rw [if_neg h2, if_neg h2]
        by_cases h3 : (chunks ++ [cur]).length = maxM
        · rw [if_pos h3, if_pos h3]
        · rw [if_neg h3, if_neg h3]
          exact ih (chunks ++ [cur]) [w] _ _

/-! ## Tokens of the rendered output -/

theorem tokensOfAll_cons (x : Str) (l : List Str) :
    tokensOfAll (x :: l) = wtokens x ++ tokensOfAll l := rfl

theorem tokensOfChunks_cons (ws : List Str) (css : List (List Str)) :
    tokensOfChunks (ws :: css) = tokensOfAll ws ++ tokensOfChunks css := rfl

theorem tokensOfChunks_eq_flatW (css : List (List Str)) :
    tokensOfChunks css = tokensOfAll (flatW css) := by
  induction css with
  | nil => rfl
  | cons ws rest ih =>
    rw [tokensOfChunks_cons, ih]
    show _ = tokensOfAll (ws ++ flatW rest)
    rw [tokensOfAll_append]

theorem mapLast_cons_of_ne (f : Str → Str) (c : Str) (l : List Str) (h : l ≠ []) :
    mapLast f (c :: l) = c :: mapLast f l := by
  cases l with
  | nil => exact absurd rfl h
  | cons d ds => rfl

theorem tokens_mapLast_pre (f : Str → Str)
    (hf : ∀ c, ∃ r, wtokens c = wtokens (f c) ++ r) :
    ∀ l : List Str, ∃ r, tokensOfAll l = tokensOfAll (mapLast f l) ++ r := by
  intro l
  induction l with
  | nil => exact ⟨[], rfl⟩
  | cons c cs ih =>
    cases cs with
    | nil =>
      obtain ⟨r, hr⟩ := hf c
      refine ⟨r, ?_⟩
      show wtokens c ++ tokensOfAll [] = (wtokens (f c) ++ tokensOfAll []) ++ r
      simp [tokensOfAll, flatW, hr]
    | cons d ds =>
      obtain ⟨r, hr⟩ := ih
      refine ⟨r, ?_⟩
      rw [mapLast_cons_of_ne f c (d :: ds) (by simp), tokensOfAll_cons c (d :: ds),
        tokensOfAll_cons c (mapLast f (d :: ds)), hr, List.append_assoc]

/-- Rendering a chunk's word list with `" ".join` and then `strip()` does not
change its whitespace-words. -/
theorem tokensOfAll_strip_join (css : List (List Str)) :
    tokensOfAll (css.map (fun ws => pyStrip (joinSpace ws))) = tokensOfChunks css := by
  induction css with
  | nil => rfl
  | cons ws rest ih =>
    rw [List.map_cons, tokensOfAll_cons, wtokens_pyStrip, wtokens_joinSpace, ih,
      tokensOfChunks_cons]

/-- In the truncated rendering, stripping the marker back off recovers exactly
the packed words' tokens. -/
theorem tokens_render_marked (css : List (List Str)) :
    tokensOfAll (mapLast stripMarker ((markLast (css.map joinSpace)).map pyStrip))
      = tokensOfChunks css := by
  induction css with
  | nil => rfl
  | cons ws rest ih =>
    cases rest with
    | nil =>
      show tokensOfAll [stripMarker (pyStrip (joinSpace ws ++ marker))] = _
      rw [stripMarker_pyStrip_marker]
      show wtokens ((joinSpace ws).dropWhile Char.isWhitespace) ++ [] = _
      rw [wtokens_dropWhile, wtokens_joinSpace, List.append_nil]
      show _ = tokensOfAll ws ++ []
      rw [List.append_nil]
    | cons d ds =>
      have h1 : markLast ((ws :: d :: ds).map joinSpace)
          = joinSpace ws :: markLast ((d :: ds).map joinSpace) := rfl
      have h2 : markLast ((d :: ds).map joinSpace) ≠ [] := by
        rw [markLast_eq_mapLast]
        exact mapLast_ne_nil _ _ (by simp)
      rw [h1, List.map_cons,
        mapLast_cons_of_ne _ _ _ (by simpa using h2),
        tokensOfAll_cons, wtokens_pyStrip, wtokens_joinSpace, ih]
      rfl

theorem mem_tokensOfAll (t : Str) (l : List Str) (h : t ∈ tokensOfAll l) :
    ∃ v ∈ l, t ∈ wtokens v := by
  induction l with
  | nil => cases h
  | cons c cs ih =>
    rw [tokensOfAll_cons] at h
    rcases List.mem_append.mp h with h1 | h2
    · exact ⟨c, by simp, h1⟩
    · obtain ⟨v, hv, hvt⟩ := ih h2
      exact ⟨v, by simp [hv], hvt⟩

/-- Key content lemma: the whitespace-words of the decoration-stripped output
form an initial segment of the whitespace-words of the byte-size-filtered
input word sequence. -/
theorem tokensOut_initial (maxM : Nat) (s : Str) (maxB : Nat) :
    ∃ r, tokensOfAll (stripDecorAll (truncate_utf8 maxM s maxB)) ++ r
        = tokensOfAll ((splitOnSpace s).filter (keepWord maxB)) := by
  have hfilterid : ∀ s' : Str, byteLen s' ≤ maxB →
      (splitOnSpace s').filter (keepWord maxB) = splitOnSpace s' := by
    intro s' hs'
    apply List.filter_eq_self.mpr
    intro w hw
    have := byteLen_word_le w s' hw
    simp [keepWord]
    omega
  by_cases hfit : byteLen s ≤ maxB
  · rw [hfilterid s hfit]
    have hout : truncate_utf8 maxM s maxB = [s] := by
      unfold truncate_utf8
      rw [if_pos hfit]
    rw [hout]
    show ∃ r, tokensOfAll [stripMarker (dropTrailing (suffixFor 1 1) s)] ++ r
        = tokensOfAll (splitOnSpace s)
    obtain ⟨r1, hr1⟩ := dropTrailing_tokens_pre (natChars 1 ++ '/' :: natChars 1) s
    rw [show (' ' :: (natChars 1 ++ '/' :: natChars 1)) = suffixFor 1 1 from rfl] at hr1
    obtain ⟨r2, hr2⟩ := stripMarker_tokens_pre (dropTrailing (suffixFor 1 1) s)
    refine ⟨r2 ++ r1, ?_⟩
    have htok : tokensOfAll (splitOnSpace s) = wtokens s := by
      rw [← wtokens_joinSpace, joinSpace_splitOnSpace]
    rw [htok, hr1, hr2]
    show (wtokens (stripMarker (dropTrailing (suffixFor 1 1) s)) ++ []) ++ (r2 ++ r1)
        = (wtokens (stripMarker (dropTrailing (suffixFor 1 1) s)) ++ r2) ++ r1
    simp [List.append_assoc]
  · have hout : truncate_utf8 maxM s maxB
        = addSuffixFrom (if (truncGo maxB maxM (byteLen (suffixFor maxM maxM))
              (splitOnSpace s) [] [] 0 0).2
            then markLast (((truncGo maxB maxM (byteLen (suffixFor maxM maxM))
              (splitOnSpace s) [] [] 0 0).1).map joinSpace)
            else ((truncGo maxB maxM (byteLen (suffixFor maxM maxM))
              (splitOnSpace s) [] [] 0 0).1).map joinSpace).length 0
          (if (truncGo maxB maxM (byteLen (suffixFor maxM maxM))
              (splitOnSpace s) [] [] 0 0).2
            then markLast (((truncGo maxB maxM (byteLen (suffixFor maxM maxM))
              (splitOnSpace s) [] [] 0 0).1).map joinSpace)
            else ((truncGo maxB maxM (byteLen (suffixFor maxM maxM))
              (splitOnSpace s) [] [] 0 0).1).map joinSpace) := by
      unfold truncate_utf8
      rw [if_neg hfit]
    set css := (truncGo maxB maxM (byteLen (suffixFor maxM maxM))
      (splitOnSpace s) [] [] 0 0).1 with hcss
    set flag := (truncGo maxB maxM (byteLen (suffixFor maxM maxM))
      (splitOnSpace s) [] [] 0 0).2 with hflag
    set chunks := if flag then markLast (css.map joinSpace) else css.map joinSpace
      with hchunks
    have hstrip : stripDecorAll (truncate_utf8 maxM s maxB)
        = mapLast stripMarker (chunks.map pyStrip) := by
      rw [hout]
      unfold stripDecorAll
      rw [addSuffixFrom_length, stripSuffixesFrom_addSuffixFrom]
    obtain ⟨t, r, hwords, hsplit⟩ := truncGo_words maxB maxM
      (byteLen (suffixFor maxM maxM)) (splitOnSpace s) [] [] 0 0
    have hflat : flatW css = t := by simpa [flatW] using hwords
    have hchunkTok : ∃ r0, tokensOfAll (mapLast stripMarker (chunks.map pyStrip)) ++ r0
        = tokensOfChunks css := by
      rw [hchunks]
      by_cases hf : flag
      · rw [if_pos hf]
        exact ⟨[], by rw [List.append_nil, tokens_render_marked]⟩
      · rw [if_neg hf]
        obtain ⟨r0, hr0⟩ := tokens_mapLast_pre stripMarker stripMarker_tokens_pre
          ((css.map joinSpace).map pyStrip)
        refine ⟨r0, ?_⟩
        rw [← hr0, List.map_map]
        exact tokensOfAll_strip_join css
    obtain ⟨r0, hr0⟩ := hchunkTok
    refine ⟨r0 ++ tokensOfAll r, ?_⟩
    rw [hstrip, ← List.append_assoc, hr0, tokensOfChunks_eq_flatW, hflat, ← hsplit,
      tokensOfAll_append]

/-! ## Lemmas about the rebroadcast ring -/

theorem atD_nil (k : Nat) (d : β) : atD ([] : List β) k d = d := by
  simp [atD]

theorem atD_cons_zero (x : β) (l : List β) (d : β) : atD (x :: l) 0 d = x := rfl

theorem atD_cons_succ (x : β) (l : List β) (k : Nat) (d : β) :
    atD (x :: l) (k + 1) d = atD l k d := rfl

theorem atD_append_nilslot (t : List (List M)) (k : Nat) :
    atD (t ++ [[]]) k ([] : List M) = atD t k [] := by
  induction t generalizing k with
  | nil =>
    cases k with
    | zero => rfl
    | succ k => rw [List.nil_append, atD_cons_succ, atD_nil, atD_nil]
  | cons x xs ih =>
    cases k with
    | zero => rfl
    | succ k => rw [List.cons_append, atD_cons_succ, atD_cons_succ, ih]

/-- What the `k`-th advance pops is just the `k`-th slot of the ring (fresh
slots appended behind the ring are empty anyway). -/
theorem outputAt_eq_atD : ∀ (k : Nat) (q : List (List M)), outputAt q k = atD q k [] := by
  intro k
  induction k with
  | zero =>
    intro q
    cases q <;> rfl
  | succ k ih =>
    intro q
    show outputAt (advanceQ q).2 k = atD q (k + 1) []
    rw [ih]
    cases q with
    | nil =>
      show atD ([] ++ [[]]) k [] = atD [] (k + 1) []
      rw [atD_append_nilslot, atD_nil, atD_nil]
    | cons x xs =>
      show atD (xs ++ [[]]) k [] = atD (x :: xs) (k + 1) []
      rw [atD_append_nilslot, atD_cons_succ]

theorem atD_set_self (l : List (List M)) (v : List M) :
    ∀ j, j < l.length → atD (l.set j v) j [] = v := by
  induction l with
  | nil => intro j hj; simp at hj
  | cons x xs ih =>
    intro j hj
    cases j with
    | zero => rfl
    | succ j =>
      rw [List.set_cons_succ, atD_cons_succ]
      exact ih j (by simpa using hj)

theorem atD_set_ne (l : List (List M)) (v : List M) :
    ∀ j k, j ≠ k → atD (l.set j v) k [] = atD l k [] := by
  induction l with
  | nil => intro j k _; rfl
  | cons x xs ih =>
    intro j k hjk
    cases j with
    | zero =>
      cases k with
      | zero => exact absurd rfl hjk
      | succ k => rfl
    | succ j =>
      cases k with
      | zero => rfl
      | succ k =>
        rw [List.set_cons_succ, atD_cons_succ, atD_cons_succ]
        exact ih j k (by omega)

theorem extendAt_length (q : List (List M)) (j : Nat) (msgs : List M) :
    (extendAt q j msgs).length = q.length := List.length_set q j _

theorem scheduleQ_length (q : List (List M)) (msgs : List M) (C : Nat) :
    ∀ R, (scheduleQ q msgs C R).length = q.length := by
  intro R
  induction R with
  | zero => rfl
  | succ r ih => rw [scheduleQ, extendAt_length, ih]

/-- Slot contents after `schedule`: slot `k` received the chunk sequence
exactly when `k` is one of the positions `(i+1)*C - 1`, `i < R`, in range. -/
theorem atD_scheduleQ (q : List (List M)) (msgs : List M) (C : Nat) (hC : 0 < C) :
    ∀ R k, atD (scheduleQ q msgs C R) k [] =
      if (k + 1) % C = 0 ∧ k + 1 ≤ R * C ∧ k < q.length then atD q k [] ++ msgs
      else atD q k [] := by
  intro R
  induction R with
  | zero =>
    intro k
    rw [if_neg]
    · rfl
    · rintro ⟨-, h2, -⟩
      omega
  | succ r ih =>
    intro k
    show atD (extendAt (scheduleQ q msgs C r) ((r + 1) * C - 1) msgs) k [] = _
    have hpos1 : 1 ≤ (r + 1) * C := Nat.mul_pos (by omega) hC
    by_cases hk : k = (r + 1) * C - 1
    · subst hk
      have hk1 : (r + 1) * C - 1 + 1 = (r + 1) * C := Nat.sub_add_cancel hpos1
      by_cases hrange : (r + 1) * C - 1 < q.length
      · have hlen : (r + 1) * C - 1 < (scheduleQ q msgs C r).length := by
          rw [scheduleQ_length]; exact hrange
        unfold extendAt
        rw [atD_set_self _ _ _ hlen, ih]
        rw [if_neg (by
          rintro ⟨-, h2, -⟩
          rw [hk1] at h2
          have : r * C < (r + 1) * C := (Nat.mul_lt_mul_right hC).mpr (by omega)
          omega)]
        rw [if_pos ⟨by rw [hk1]; exact Nat.mul_mod_left _ _, by rw [hk1], hrange⟩]
      · have hlen : (scheduleQ q msgs C r).length ≤ (r + 1) * C - 1 := by
          rw [scheduleQ_length]; omega
        unfold extendAt
        rw [List.set_eq_of_length_le hlen, ih]
        rw [if_neg (by rintro ⟨-, -, h3⟩; omega), if_neg (by rintro ⟨-, -, h3⟩; omega)]
    · unfold extendAt
      rw [atD_set_ne _ _ _ _ (fun h => hk h.symm), ih]
      have hcond : ((k + 1) % C = 0 ∧ k + 1 ≤ r * C ∧ k < q.length) ↔
          ((k + 1) % C = 0 ∧ k + 1 ≤ (r + 1) * C ∧ k < q.length) := by
        constructor
        · rintro ⟨h1, h2, h3⟩
          refine ⟨h1, ?_, h3⟩
          have : r * C ≤ (r + 1) * C := Nat.mul_le_mul_right C (by omega)
          omega
        · rintro ⟨h1, h2, h3⟩
          refine ⟨h1, ?_, h3⟩
          obtain ⟨m, hm⟩ := Nat.dvd_of_mod_eq_zero h1
          rw [Nat.mul_comm] at hm
          have hmne : m ≠ r + 1 := by
            intro h
            subst h
            exact hk (by omega)
          have hmle : m ≤ r + 1 :=
            Nat.le_of_mul_le_mul_right (by omega : m * C ≤ (r + 1) * C) hC
          have hmr : m ≤ r := by omega
          have : m * C ≤ r * C := Nat.mul_le_mul_right C hmr
          omega
      by_cases hcase : (k + 1) % C = 0 ∧ k + 1 ≤ (r + 1) * C ∧ k < q.length
      · rw [if_pos (hcond.mpr hcase), if_pos hcase]
      · rw [if_neg (fun h => hcase (hcond.mp h)), if_neg hcase]

theorem atD_initQueue (R C k : Nat) :
    atD (initQueue R C : List (List M)) k [] = [] := by
  unfold initQueue
  induction k generalizing R C with
  | zero =>
    cases h : C * R with
    | zero => rfl
    | succ n => rfl
  | succ k ih =>
    cases h : C * R with
    | zero => rfl
    | succ n =>
      rw [List.replicate_succ, atD_cons_succ]
      have := ih 1 n
      simpa using this

/-! ## Lemmas about the polling loop -/

theorem mainRun_dispatch_atD {α : Type} [DecidableEq α] :
    ∀ (fetches : List (Finset α)) (st : LoopState α) (i : Nat),
      atD (mainRun st fetches).1 (i + 1) ∅
        = atD fetches (i + 1) ∅ \ atD fetches i ∅ := by
  intro fetches
  induction fetches with
  | nil =>
    intro st i
    show atD ([] : List (Finset α)) (i + 1) ∅ = _
    simp [atD_nil]
  | cons c rest ih =>
    intro st i
    show atD ((if st.first then ∅ else c \ st.known) :: (mainRun ⟨false, c⟩ rest).1) (i + 1) ∅
        = _
    rw [atD_cons_succ]
    cases i with
    | zero =>
      cases rest with
      | nil =>
        show atD ([] : List (Finset α)) 0 ∅ = atD [c] 1 ∅ \ atD [c] 0 ∅
        rw [atD_nil]
        show (∅ : Finset α) = atD ([] : List (Finset α)) 0 ∅ \ c
        rw [atD_nil, Finset.empty_sdiff]
      | cons d ds =>
        show atD (mainRun (⟨false, c⟩ : LoopState α) (d :: ds)).1 0 ∅ = _
        show atD ((if False then ∅ else d \ c) :: (mainRun ⟨false, d⟩ ds).1) 0 ∅ = _
        rw [atD_cons_zero]
        simp only [if_false]
        rfl
    | succ i =>
      rw [ih ⟨false, c⟩ i, atD_cons_succ, atD_cons_succ]

theorem mainRun_known {α : Type} [DecidableEq α] :
    ∀ (fs : List (Finset α)) (st : LoopState α) (c : Finset α),
      (mainRun st (fs ++ [c])).2.known = c := by
  intro fs
  induction fs with
  | nil => intro st c; rfl
  | cons f fs ih =>
    intro st c
    show (mainRun (⟨false, f⟩ : LoopState α) (fs ++ [c])).2.known = c
    exact ih ⟨false, f⟩ c

/-! ## The claims -/

/-- C1: the claim says every returned chunk (suffix included) fits in
`maxBytesPerChunk`.  The code violates this: with budget 10 and
`MAX_MESSAGES = 2`, input `"aa bbbbbbbbb"` yields the 13-byte chunk
`"bbbbbbbbb 2/2"`.  The 9-byte word passes the line-32 skip check, is made
the sole word of a fresh chunk on line 60 without re-checking the
suffix-reduced budget, and the appended suffix then pushes the chunk over
`max_bytes`. -/
theorem c1_chunk_byte_budget_code_bug :
    truncate_utf8 2 "aa bbbbbbbbb".data 10
      = ["aa 1/2".data, "bbbbbbbbb 2/2".data] ∧
    byteLen "bbbbbbbbb 2/2".data = 13 ∧ ¬ byteLen "bbbbbbbbb 2/2".data ≤ 10 := by
  decide

/-- C2: the claim says a transport/parse failure yields an empty result which
the main loop treats as zero alerts and continues.  In the code the
exception handler returns the bare `set()` (line 82) while the success path
returns a pair, so the unpacking `current_alerts, data = fetch_alerts()`
on line 163 raises `ValueError` and the loop dies instead of continuing. -/
theorem c2_fetch_failure_code_bug (geocode : Int) :
    fetch_alerts geocode none = .bareSet ∅ ∧
    unpackFetch (fetch_alerts geocode none) = none := ⟨rfl, rfl⟩

/-- C3: with `repeatCount`, `cycleSpacing > 0` the ring has
`repeatCount * cycleSpacing` slots, and a chunk sequence scheduled into a
fresh ring is drained by the subsequent `advance()` calls exactly at the
0-based offsets `C-1, 2C-1, …, RC-1` — once per scheduled slot and at no
other offset (in particular never earlier); for `R = 2, C = 3` these are
offsets 2 and 5. -/
theorem c3_ring_schedule {M : Type} (R C : Nat) (hR : 0 < R) (hC : 0 < C)
    (msgs : List M) :
    (initQueue R C : List (List M)).length = R * C ∧
    ∀ k, outputAt (scheduleQ (initQueue R C) msgs C R) k
        = if (k + 1) % C = 0 ∧ k < R * C then msgs else [] := by
  have hq : (initQueue R C : List (List M)).length = C * R := by
    show (List.replicate (C * R) ([] : List M)).length = C * R
    exact List.length_replicate _ _
  constructor
  · rw [hq, Nat.mul_comm]
  · intro k
    rw [outputAt_eq_atD, atD_scheduleQ _ _ _ hC, hq, atD_initQueue]
    have hcomm : C * R = R * C := Nat.mul_comm C R
    by_cases h : (k + 1) % C = 0 ∧ k < R * C
    · rw [if_pos ⟨h.1, by omega, by omega⟩, if_pos h]
      rfl
    · rw [if_neg (by rintro ⟨h1, h2, h3⟩; exact h ⟨h1, by omega⟩), if_neg h]

/-- Witness for C3 at `repeatCount = 2`, `cycleSpacing = 3`: hypotheses hold
and the sequence appears at advance offset 2. -/
theorem c3_ring_schedule_witness :
    (0 < 2 ∧ 0 < 3) ∧
    (initQueue 2 3 : List (List Nat)).length = 2 * 3 ∧
    outputAt (scheduleQ (initQueue 2 3) [(0 : Nat)] 3 2) 2
      = if (2 + 1) % 3 = 0 ∧ 2 < 2 * 3 then [(0 : Nat)] else [] :=
  ⟨⟨by decide, by decide⟩, (c3_ring_schedule 2 3 (by decide) (by decide) [0]).1,
    (c3_ring_schedule 2 3 (by decide) (by decide) [0]).2 2⟩

/-- C4 counterexample: for input `" a "` (3 bytes < 10) the code returns the
input unmodified, not the trimmed input `"a"` the claim promises. -/
theorem c4_counterexample :
    byteLen " a ".data < 10 ∧
    truncate_utf8 2 " a ".data 10 = [" a ".data] ∧
    truncate_utf8 2 " a ".data 10 ≠ [pyStrip " a ".data] := by
  decide

/-- C4 amended: for every text whose UTF-8 byte length is below the budget,
`truncate_utf8` returns exactly one chunk equal to the input unmodified (not
trimmed), with no positional suffix; the suffix is appended only when the
original byte length exceeded the budget. -/
theorem c4_amended_short_input (maxM maxB : Nat) (s : Str) (h : byteLen s < maxB) :
    truncate_utf8 maxM s maxB = [s] := by
  unfold truncate_utf8
  rw [if_pos (Nat.le_of_lt h)]

/-- Witness for C4 amended at `s = "hi"`, budget 10. -/
theorem c4_amended_short_input_witness :
    byteLen "hi".data < 10 ∧ truncate_utf8 2 "hi".data 10 = ["hi".data] :=
  ⟨by decide, c4_amended_short_input 2 10 "hi".data (by decide)⟩

/-- C5 counterexample: segmentation truncates on this input, but the last
returned chunk is `"bbb [...] 2/2"`, which does not end with the truncation
marker — the positional suffix is appended after the marker. -/
theorem c5_counterexample :
    truncationOccurred 2 "aaa bbb ccc ddd eee fff".data 10 = true ∧
    lastD (truncate_utf8 2 "aaa bbb ccc ddd eee fff".data 10)
      = "bbb [...] 2/2".data ∧
    marker.isSuffixOf "bbb [...] 2/2".data = false ∧
    markerText.isSuffixOf "bbb [...] 2/2".data = false := by
  decide

/-- C5 amended: whenever segmentation truncates, the result has at most
`maxChunks` entries, the last chunk ends with the truncation marker
immediately followed by its positional suffix (`"[...] maxM/maxM"`), and the
output's words are an initial segment of the kept input words — the words
discarded at truncation never appear. -/
theorem c5_amended_truncation (maxM maxB : Nat) (s : Str)
    (h : truncationOccurred maxM s maxB = true) :
    (truncate_utf8 maxM s maxB).length ≤ maxM ∧
    (∃ pre, lastD (truncate_utf8 maxM s maxB)
        = pre ++ (markerText ++ suffixFor maxM maxM)) ∧
    wtokens (joinSpace (stripDecorAll (truncate_utf8 maxM s maxB))) <+:
      tokensOfAll ((splitOnSpace s).filter (keepWord maxB)) := by
  have hfit : ¬ byteLen s ≤ maxB := by
    intro hle
    rw [truncationOccurred, if_pos hle] at h
    exact Bool.false_ne_true h
  have hflag : (truncGo maxB maxM (byteLen (suffixFor maxM maxM))
      (splitOnSpace s) [] [] 0 0).2 = true := by
    rwa [truncationOccurred, if_neg hfit] at h
  obtain ⟨hlen, hne⟩ := truncGo_true maxB maxM (byteLen (suffixFor maxM maxM))
    (splitOnSpace s) [] [] 0 0 hflag
  set css := (truncGo maxB maxM (byteLen (suffixFor maxM maxM))
    (splitOnSpace s) [] [] 0 0).1 with hcssdef
  have hout : truncate_utf8 maxM s maxB
      = addSuffixFrom (markLast (css.map joinSpace)).length 0
          (markLast (css.map joinSpace)) := by
    unfold truncate_utf8
    rw [if_neg hfit]
    show addSuffixFrom (if (truncGo maxB maxM (byteLen (suffixFor maxM maxM))
        (splitOnSpace s) [] [] 0 0).2
          then markLast (css.map joinSpace) else css.map joinSpace).length 0 _ = _
    rw [hflag]
    rfl
  have hmapne : css.map joinSpace ≠ [] := by
    intro hmap
    exact hne (List.map_eq_nil_iff.mp hmap)
  have hmarkne : markLast (css.map joinSpace) ≠ [] := by
    rw [markLast_eq_mapLast]
    exact mapLast_ne_nil _ _ hmapne
  have hmarklen : (markLast (css.map joinSpace)).length = maxM := by
    rw [markLast_eq_mapLast, mapLast_length, List.length_map, hlen]
  refine ⟨?_, ?_, ?_⟩
  · rw [hout, addSuffixFrom_length, hmarklen]
  · refine ⟨?_, ?_⟩
    case _ =>
      exact (((joinSpace (lastD css)).dropWhile Char.isWhitespace ++
        if (joinSpace (lastD css)).dropWhile Char.isWhitespace = [] then []
          else [' ']) : Str)
    rw [hout, lastD_addSuffixFrom _ _ hmarkne 0, hmarklen]
    have hlast : lastD (markLast (css.map joinSpace))
        = joinSpace (lastD css) ++ marker := by
      rw [markLast_eq_mapLast, lastD_mapLast _ _ hmapne, lastD_map_joinSpace css hne]
    rw [hlast, pyStrip_append_marker]
    by_cases hdw : (joinSpace (lastD css)).dropWhile Char.isWhitespace = []
    · rw [if_pos hdw, if_pos hdw, hdw]
      simp
    · rw [if_neg hdw, if_neg hdw]
      show _ = (_ ++ [' ']) ++ (markerText ++ _)
      simp [marker, List.append_assoc]
  · obtain ⟨r, hr⟩ := tokensOut_initial maxM s maxB
    exact ⟨r, by rw [wtokens_joinSpace]; exact hr⟩

/-- Witness for C5 amended on a truncating input. -/
theorem c5_amended_truncation_witness :
    truncationOccurred 2 "aaa bbb ccc ddd eee fff".data 10 = true ∧
    (truncate_utf8 2 "aaa bbb ccc ddd eee fff".data 10).length ≤ 2 :=
  ⟨by decide,
    (c5_amended_truncation 2 10 "aaa bbb ccc ddd eee fff".data (by decide)).1⟩

/-- C6 counterexample: the 12-byte word of `"aa bbbbbbbbbbbb cc"` is skipped
mid-stream (budget 10), so the stripped output words `["aa", "cc"]` are not
a prefix of the input's whitespace-tokenised word sequence. -/
theorem c6_counterexample :
    wtokens (joinSpace (stripDecorAll (truncate_utf8 2 "aa bbbbbbbbbbbb cc".data 10)))
      = ["aa".data, "cc".data] ∧
    wtokens "aa bbbbbbbbbbbb cc".data
      = ["aa".data, "bbbbbbbbbbbb".data, "cc".data] ∧
    ¬ (["aa".data, "cc".data] <+:
        ["aa".data, "bbbbbbbbbbbb".data, "cc".data]) := by
  decide

/-- C6 amended: for every input, the whitespace-words of the output (chunks
stripped of positional suffixes and truncation marker, concatenated) form a
prefix — in order, without reordering or duplication — of the whitespace-words
of the input word sequence after removing the words whose own byte length
exceeds the budget. -/
theorem c6_amended_content (maxM maxB : Nat) (s : Str) :
    wtokens (joinSpace (stripDecorAll (truncate_utf8 maxM s maxB))) <+:
      tokensOfAll ((splitOnSpace s).filter (keepWord maxB)) := by
  obtain ⟨r, hr⟩ := tokensOut_initial maxM s maxB
  exact ⟨r, by rw [wtokens_joinSpace]; exact hr⟩

/-- C7: a word whose own byte length exceeds the budget is dropped entirely:
it never appears among the output's words, and the packing loop's behaviour
is identical to its behaviour on the word list with all oversized words
removed (so it cannot make any chunk longer, and the loop — a structurally
recursive function here — always terminates). -/
theorem c7_oversized_word (maxM maxB : Nat) (s w : Str) (h : byteLen w > maxB) :
    w ∉ wtokens (joinSpace (stripDecorAll (truncate_utf8 maxM s maxB))) ∧
    ∀ suffixLen ws chunks cur size esl,
      truncGo maxB maxM suffixLen ws chunks cur size esl
        = truncGo maxB maxM suffixLen (ws.filter (keepWord maxB)) chunks cur size esl := by
  constructor
  · intro hmem
    rw [wtokens_joinSpace] at hmem
    obtain ⟨r, hr⟩ := tokensOut_initial maxM s maxB
    have hmem2 : w ∈ tokensOfAll ((splitOnSpace s).filter (keepWord maxB)) := by
      rw [← hr]
      exact List.mem_append.mpr (Or.inl hmem)
    obtain ⟨v, hv, hvw⟩ := mem_tokensOfAll w _ hmem2
    have hkeep : keepWord maxB v = true := (List.mem_filter.mp hv).2
    have hle : byteLen w ≤ byteLen v := byteLen_wtokens_le v w hvw
    have : ¬ byteLen v > maxB := by simpa [keepWord] using hkeep
    omega
  · intro sl ws chunks cur size esl
    exact truncGo_filter_eq maxB maxM sl ws chunks cur size esl

/-- Witness for C7: the 12-byte word of the C6 example, budget 10. -/
theorem c7_oversized_word_witness :
    byteLen "bbbbbbbbbbbb".data > 10 ∧
    "bbbbbbbbbbbb".data ∉ wtokens (joinSpace (stripDecorAll
        (truncate_utf8 2 "aa bbbbbbbbbbbb cc".data 10))) :=
  ⟨by decide,
    (c7_oversized_word 2 10 "aa bbbbbbbbbbbb cc".data "bbbbbbbbbbbb".data
      (by decide)).1⟩

/-- C8 counterexample: in dry-run mode `first = not DRY_RUN` is `False`, so
the very first cycle does dispatch the alerts of the first fetch — first-cycle
suppression is not unconditional as the claim states. -/
theorem c8_counterexample :
    (mainRun (initState true) [({0} : Finset Nat)]).1 = [{0}] ∧
    ({0} : Finset Nat) ≠ ∅ := by
  decide

/-- C8 amended: when not in dry-run mode the first cycle dispatches nothing
(bootstrap suppression), and an alert present in a cycle's fetch but absent
from the previous cycle's fetch is dispatched in that cycle, whatever the
start state. -/
theorem c8_amended_bootstrap {α : Type} [DecidableEq α]
    (fetches : List (Finset α)) (i : Nat) (a : α)
    (hnew : a ∈ atD fetches (i + 1) ∅) (hold : a ∉ atD fetches i ∅) :
    (∀ (c : Finset α) (rest : List (Finset α)),
        atD (mainRun (initState false) (c :: rest)).1 0 ∅ = ∅) ∧
    ∀ st : LoopState α, a ∈ atD (mainRun st fetches).1 (i + 1) ∅ := by
  constructor
  · intro c rest
    rfl
  · intro st
    rw [mainRun_dispatch_atD fetches st i]
    exact Finset.mem_sdiff.mpr ⟨hnew, hold⟩

/-- Witness for C8 amended: alert 0 first appears in cycle 1 and is
dispatched in cycle 1. -/
theorem c8_amended_bootstrap_witness :
    ((0 : Nat) ∈ atD [(∅ : Finset Nat), {0}] 1 ∅ ∧
      (0 : Nat) ∉ atD [(∅ : Finset Nat), {0}] 0 ∅) ∧
    (0 : Nat) ∈ atD (mainRun (initState false) [(∅ : Finset Nat), {0}]).1 1 ∅ :=
  ⟨⟨by decide, by decide⟩,
    (c8_amended_bootstrap [(∅ : Finset Nat), {0}] 0 0 (by decide) (by decide)).2
      (initState false)⟩

/-- C9: after a cycle the known set equals exactly that cycle's fetched key
set, whatever the previous state (replacement, not merge); consequently an
alert present in cycle 0, absent in cycle 1 and present again in cycle 2 is
dispatched again as new in cycle 2. -/
theorem c9_known_replacement {α : Type} [DecidableEq α]
    (st : LoopState α) (fs : List (Finset α)) (c : Finset α)
    (f0 f1 f2 : Finset α) (a : α) (h0 : a ∈ f0) (h1 : a ∉ f1) (h2 : a ∈ f2) :
    (mainRun st (fs ++ [c])).2.known = c ∧
    a ∈ atD (mainRun st [f0, f1, f2]).1 2 ∅ := by
  refine ⟨mainRun_known fs st c, ?_⟩
  show a ∈ atD (mainRun st [f0, f1, f2]).1 (1 + 1) ∅
  rw [mainRun_dispatch_atD [f0, f1, f2] st 1]
  exact Finset.mem_sdiff.mpr ⟨h2, h1⟩

/-- Witness for C9: known set replaced by the last fetch; alert 0 redetected
after disappearing for one cycle. -/
theorem c9_known_replacement_witness :
    ((0 : Nat) ∈ ({0} : Finset Nat) ∧ (0 : Nat) ∉ (∅ : Finset Nat)) ∧
    (mainRun (initState false) ([({1} : Finset Nat)] ++ [{2}])).2.known = {2} ∧
    (0 : Nat) ∈ atD (mainRun (initState false)
        [({0} : Finset Nat), ∅, {0}]).1 2 ∅ := by
  have h := c9_known_replacement (initState false) [({1} : Finset Nat)] {2}
    {0} ∅ {0} 0 (by decide) (by decide) (by decide)
  exact ⟨⟨by decide, by decide⟩, h.1, h.2⟩

/-- C10: on input `"aaaaaaa bbb"` with budget 10 and `MAX_MESSAGES = 2`, the
7-byte first word passes the line-32 check but does not fit the
suffix-reduced budget, so the still-empty chunk is finalised: the first
returned chunk is empty apart from its positional suffix (`" 1/2"`). -/
theorem c10_empty_chunk_possible :
    byteLen "aaaaaaa".data ≤ 10 ∧
    10 - byteLen (suffixFor 2 2) < 1 + byteLen "aaaaaaa".data ∧
    truncate_utf8 2 "aaaaaaa bbb".data 10
      = [([] : Str) ++ suffixFor 1 2, "aaaaaaa [...] 2/2".data] := by
  decide

end SMHI
